import Mathlib

/-!
Verification of the chain-head indexing subsystem of py-helios-node
(`evm/db/chain_head.py`): a shallow embedding of `ChainHeadDB` together with
theorems about the historical root ring, the chronological window index and
the snapshot handle operations.

The constants `TIME_BETWEEN_HEAD_HASH_SAVE` (written `W` below) and
`NUMBER_OF_HEAD_HASH_TO_SAVE` (written `N` below) are imported by the code
from a constants module that is not part of the sources; they are kept as
parameters.  The wall clock `int(time.time())` is the parameter `now`.
-/

namespace ChainHead

/-- Byte strings are modelled as lists of byte values. -/
abbrev Bytes := List Nat

/-- Wallet addresses (canonical form is 20 bytes). -/
abbrev Addr := Bytes

/-- Block hashes (32 bytes). -/
abbrev Hash := Bytes

/-- Modelled from the spec: the binary trie dependency (the `trie` package is
not among the repository sources) is an authenticated map from addresses to
hashes whose root uniquely identifies its contents; a snapshot root is
represented by the association list of its contents, with copy-on-write given
by value semantics.  `BLANK_HASH`, the root of the empty trie, is `[]`. -/
abbrev Root := List (Addr × Hash)

/-- Modelled from the spec: `get(root, key)` on the binary trie, deterministic
and non-mutating. -/
def trieGet (t : Root) (k : Addr) : Option Hash :=
  match t with
  | [] => none
  | p :: rest => if p.1 = k then some p.2 else trieGet rest k

/-- Modelled from the spec: `put(root, key, value)` on the binary trie returns
the root of the updated map; prior roots stay valid. -/
def triePut (t : Root) (k : Addr) (v : Hash) : Root :=
  match t with
  | [] => [(k, v)]
  | p :: rest => if p.1 = k then (k, v) :: rest else p :: triePut rest k v

/-- The failure modes the embedded operations can surface: the typed
validation errors of the spec's error taxonomy, the timestamp error raised by
`ChainHeadDB`, and the untyped runtime errors that the dynamically typed code
can raise (`IndexError` on an empty list, `TypeError` from `range`). -/
inductive PyErr where
  | invalidHeadRootTimestamp
  | invalidAddress
  | invalidUint256
  | indexError
  | typeError
deriving DecidableEq, Repr

/-- The decoded contents of the key-value store as far as the chain-head
subsystem reads and writes it: the current-root key, the historical ring key
and the per-window chronological keys.  Ring entries are `(window, root)`
pairs in stored order; chronological entries are `(timestamp, block hash)`
pairs. -/
structure DB where
  currentRoot : Option Root
  ring : Option (List (Nat × Root))
  chron : List (Nat × List (Nat × Bytes))
deriving DecidableEq, Repr

/-- Lookup of a chronological window key in the store. -/
def chronGet (c : List (Nat × List (Nat × Bytes))) (w : Nat) :
    Option (List (Nat × Bytes)) :=
  match c with
  | [] => none
  | p :: rest => if p.1 = w then some p.2 else chronGet rest w

/-- Writing a chronological window key: overwrite in place, or append a fresh
key. -/
def chronSet (c : List (Nat × List (Nat × Bytes))) (w : Nat)
    (v : List (Nat × Bytes)) : List (Nat × List (Nat × Bytes)) :=
  match c with
  | [] => [(w, v)]
  | p :: rest => if p.1 = w then (w, v) :: rest else p :: chronSet rest w v

/-- Deleting a chronological window key (`del db[key]` with a missing key
swallowed, as in `delete_chronological_block_window`). -/
def chronDel (c : List (Nat × List (Nat × Bytes))) (w : Nat) :
    List (Nat × List (Nat × Bytes)) :=
  c.filter (fun p => p.1 ≠ w)

/-- A live `ChainHeadDB` handle: the store plus the handle's snapshot
(`root_hash` together with the write buffer, collapsed to the snapshot
contents). -/
structure Handle where
  db : DB
  trie : Root
deriving DecidableEq, Repr

/-- Modelled from the spec: `validate_canonical_address` (the validation
module is not among the repository sources) accepts exactly 20-byte
addresses. -/
def isCanonicalAddress (a : Addr) : Bool := a.length == 20

/-- Modelled from the spec: `validate_uint256` accepts integers in
`[0, 2^256)`. -/
def isUint256 (n : Nat) : Bool := n < 2 ^ 256

/-- `ChainHeadDB.set_chain_head_hash`: validate the address, then write the
head hash for that address through the cached trie. -/
def set_chain_head_hash (h : Handle) (address : Addr) (head_hash : Hash) :
    Except PyErr Handle :=
  if isCanonicalAddress address then
    .ok { h with trie := triePut h.trie address head_hash }
  else .error .invalidAddress

/-- `ChainHeadDB.get_chain_head_hash`: validate the address, then read the
head hash for that address from the cached trie. -/
def get_chain_head_hash (h : Handle) (address : Addr) :
    Except PyErr (Option Hash) :=
  if isCanonicalAddress address then .ok (trieGet h.trie address)
  else .error .invalidAddress

/-- A Python `dict` built from an association list: later entries overwrite
earlier ones, so lookup returns the value of the last entry with the key. -/
def dictLookup (l : List (Nat × Root)) (k : Nat) : Option Root :=
  match l with
  | [] => none
  | p :: rest =>
    match dictLookup rest k with
    | some v => some v
    | none => if p.1 = k then some p.2 else none

/-- `ChainHeadDB.get_chain_head_hash_at_timestamp`: validates the address and
timestamp, rejects future or unaligned timestamps, then resolves the
historical root for the timestamp and reads the head hash from the snapshot
at that root.  `historical_roots[0]` on an empty stored ring raises
`IndexError`. -/
def get_chain_head_hash_at_timestamp (W now : Nat) (h : Handle)
    (address : Addr) (timestamp : Nat) : Except PyErr (Option Hash) :=
  if isCanonicalAddress address then
    if isUint256 timestamp then
      if timestamp > now then .error .invalidHeadRootTimestamp
      else if timestamp % W ≠ 0 then .error .invalidHeadRootTimestamp
      else
        match h.db.ring with
        | none => .ok none
        | some [] => .error .indexError
        | some (first :: rest) =>
          if timestamp < first.1 then .ok none
          else
            let historical_root :=
              match dictLookup (first :: rest) timestamp with
              | some r => r
              | none => ((first :: rest).getLastD first).2
            .ok (trieGet historical_root address)
    else .error .invalidUint256
  else .error .invalidAddress

/-- `ChainHeadDB.save_historical_root_hashes`. -/
def save_historical_root_hashes (db : DB) (root_hashes : List (Nat × Root)) :
    DB :=
  { db with ring := some root_hashes }

/-- `ChainHeadDB.delete_chronological_block_window`: validates the timestamp
and its alignment, then deletes the window key (missing keys ignored). -/
def delete_chronological_block_window (W : Nat) (db : DB) (timestamp : Nat) :
    Except PyErr DB :=
  if isUint256 timestamp then
    if timestamp % W ≠ 0 then .error .invalidHeadRootTimestamp
    else .ok { db with chron := chronDel db.chron timestamp }
  else .error .invalidUint256

/-- Python `range(a, b, step)` for a positive step. -/
def pyRangeStep (a b step : Nat) : List Nat :=
  (List.range ((b - a + step - 1) / step)).map (fun i => a + step * i)

/-- The deletion loop at the end of `append_current_root_hash_to_historical`:
delete each listed chronological window, propagating the first error. -/
def deleteWindows (W : Nat) (db : DB) (ws : List Nat) : Except PyErr DB :=
  match ws with
  | [] => .ok db
  | w :: rest =>
    match delete_chronological_block_window W db w with
    | .error e => .error e
    | .ok db2 => deleteWindows W db2 rest

/-- The pure effect of a successful deletion loop on the chronological keys. -/
def chronDelAll (c : List (Nat × List (Nat × Bytes))) (ws : List Nat) :
    List (Nat × List (Nat × Bytes)) :=
  ws.foldl chronDel c

/-- Python `del l[:-n]`: for positive `n` this keeps the last `n` entries of
the list; for `n = 0` the slice `l[:0]` is empty and nothing is deleted. -/
def pyTrimKeepLast (n : Nat) (l : List (Nat × Root)) : List (Nat × Root) :=
  if n = 0 then l else l.drop (l.length - n)

/-- `ChainHeadDB.append_current_root_hash_to_historical` (the spec's
`promote_current_to_ring`).  `W`, `N` and `now` stand for
`TIME_BETWEEN_HEAD_HASH_SAVE`, `NUMBER_OF_HEAD_HASH_TO_SAVE` and
`int(time.time())`.  The comparison `latest_time < now - N * W` on Python
integers is written `latest_time + N * W < now`. -/
def append_current_root_hash_to_historical (W N now : Nat) (h : Handle) :
    Except PyErr Handle :=
  let last_finished_window := now / W * W
  let current_window := last_finished_window + W
  match h.db.ring with
  | none =>
    .ok { h with db := (save_historical_root_hashes h.db
            [(current_window, h.trie)]) }
  | some [] => .error .indexError
  | some (first :: rest) =>
    let historical_roots := first :: rest
    let initial_first_time := first.1
    let latest_time := (historical_roots.getLastD first).1
    if latest_time > last_finished_window then
      .ok { h with db := (save_historical_root_hashes h.db
              (historical_roots.dropLast ++ [(latest_time, h.trie)])) }
    else if latest_time + N * W < now then
      let start_time := now - N * W
      let new_historical_roots :=
        (List.range N).map
            (fun i => (start_time + W * i, (historical_roots.getLastD first).2))
          ++ [(current_window, h.trie)]
      let db2 := save_historical_root_hashes h.db new_historical_roots
      let final_first_time := (new_historical_roots.headD first).1
      match deleteWindows W db2
          (pyRangeStep initial_first_time final_first_time W) with
      | .error e => .error e
      | .ok db3 => .ok { h with db := db3 }
    else
      let num_increments_needed := (last_finished_window - latest_time) / W
      let appended := historical_roots
        ++ (List.range num_increments_needed).map
            (fun i => (latest_time + W * (i + 1),
                       (historical_roots.getLastD first).2))
        ++ [(current_window, h.trie)]
      let trimmed := pyTrimKeepLast N appended
      let db2 := save_historical_root_hashes h.db trimmed
      let final_first_time := (trimmed.headD first).1
      match deleteWindows W db2
          (pyRangeStep initial_first_time final_first_time W) with
      | .error e => .error e
      | .ok db3 => .ok { h with db := db3 }

/-- `ChainHeadDB.save_current_root_hash`: record the handle's root under the
current-root key, then bring the historical ring up to date. -/
def save_current_root_hash (W N now : Nat) (h : Handle) : Except PyErr Handle :=
  append_current_root_hash_to_historical W N now
    { h with db := { h.db with currentRoot := some h.trie } }

/-- `ChainHeadDB.persist`: commit the write buffer (pure in this model) and,
when asked, save the current root hash. -/
def persist (W N now : Nat) (h : Handle) (saveCurrent : Bool) :
    Except PyErr Handle :=
  if saveCurrent then save_current_root_hash W N now h else .ok h

/-- `ChainHeadDB.load_from_saved_root_hash`: open a handle at the root stored
under the current-root key, or at the blank root when the key is absent. -/
def load_from_saved_root_hash (db : DB) : Handle :=
  match db.currentRoot with
  | none => { db := db, trie := [] }
  | some r => { db := db, trie := r }

/-- `ChainHeadDB.add_block_hash_to_timestamp`: after validation it brings the
ring up to date, but the starting index of the rewrite loop is computed with
true division (`starting_index = (timestamp - ring[0].window) / W`), which in
Python 3 yields a `float`; `range(starting_index, num_increments)` therefore
raises `TypeError` before any historical snapshot is rewritten. -/
def add_block_hash_to_timestamp (W N now : Nat) (h : Handle) (address : Addr)
    (head_hash : Hash) (timestamp : Nat) : Except PyErr Handle :=
  if isCanonicalAddress address then
    if isUint256 timestamp then
      if timestamp > now then .error .invalidHeadRootTimestamp
      else if timestamp % W ≠ 0 then .error .invalidHeadRootTimestamp
      else
        match append_current_root_hash_to_historical W N now h with
        | .error e => .error e
        | .ok _ => .error .typeError
    else .error .invalidUint256
  else .error .invalidAddress

/-- The insertion scan of `add_block_hash_to_chronological_window`: walk the
stored list from the tail and insert the new pair right after the last entry
whose timestamp is at most the new one; if there is none, prepend. -/
def chronInsert (timestamp : Nat) (head_hash : Bytes) :
    List (Nat × Bytes) → List (Nat × Bytes)
  | [] => [(timestamp, head_hash)]
  | p :: rest =>
    if rest.any (fun q => decide (q.1 ≤ timestamp)) then
      p :: chronInsert timestamp head_hash rest
    else if p.1 ≤ timestamp then p :: (timestamp, head_hash) :: rest
    else (timestamp, head_hash) :: p :: rest

/-- `ChainHeadDB.add_block_hash_to_chronological_window`.  The guard
`timestamp > now - N * W` on Python integers is written
`now < timestamp + N * W`; when it fails the call does nothing. -/
def add_block_hash_to_chronological_window (W N now : Nat) (db : DB)
    (head_hash : Bytes) (timestamp : Nat) : Except PyErr DB :=
  if isUint256 timestamp then
    if now < timestamp + N * W then
      let window_for_this_block := timestamp / W * W
      if isUint256 window_for_this_block then
        if window_for_this_block % W ≠ 0 then .error .invalidHeadRootTimestamp
        else
          let new_data :=
            match chronGet db.chron window_for_this_block with
            | none => [(timestamp, head_hash)]
            | some data => chronInsert timestamp head_hash data
          .ok { db with chron := (chronSet db.chron window_for_this_block
                  new_data) }
      else .error .invalidUint256
    else .ok db
  else .error .invalidUint256

/-- The windows of a stored ring, in stored order. -/
def ringWindows (rs : List (Nat × Root)) : List Nat := rs.map (fun p => p.1)

/-- The historical-ring invariant claimed by the spec: windows strictly
increasing, consecutive windows exactly `W` apart, at most `N + 1` entries. -/
def ringInvariant (W N : Nat) (rs : List (Nat × Root)) : Prop :=
  (ringWindows rs).Chain' (fun a b => a < b) ∧
  (ringWindows rs).Chain' (fun a b => b = a + W) ∧
  rs.length ≤ N + 1

instance (W N : Nat) (rs : List (Nat × Root)) :
    Decidable (ringInvariant W N rs) :=
  inferInstanceAs (Decidable
    ((ringWindows rs).Chain' (fun a b => a < b) ∧
     (ringWindows rs).Chain' (fun a b => b = a + W) ∧
     rs.length ≤ N + 1))

/-- Whether `append_current_root_hash_to_historical` takes the
offline-longer-than-retention branch on the given stored ring. -/
def offlineBranch (W N now : Nat) (ring : Option (List (Nat × Root))) : Prop :=
  match ring with
  | some (first :: rest) =>
    ((first :: rest).getLastD first).1 ≤ now / W * W ∧
    ((first :: rest).getLastD first).1 + N * W < now
  | _ => False

/-- Basic well-formedness of a stored ring as needed for
`append_current_root_hash_to_historical` to run without a runtime error:
either absent, or non-empty with an aligned first window and all windows
below `2^256`. -/
def ringStoreWF (W : Nat) (ring : Option (List (Nat × Root))) : Prop :=
  match ring with
  | none => True
  | some [] => False
  | some (first :: rest) =>
    first.1 % W = 0 ∧ ∀ p ∈ first :: rest, p.1 < 2 ^ 256

/-- The ring written by the offline-longer-than-retention branch: `N`
synthetic entries starting at `now - N * W`, spaced by `W`, all carrying the
old tail root, then the current-window entry with the handle's root. -/
def offlineNewRing (W N now : Nat) (rs : List (Nat × Root)) (d : Nat × Root)
    (r : Root) : List (Nat × Root) :=
  (List.range N).map (fun i => (now - N * W + W * i, (rs.getLastD d).2))
    ++ [(now / W * W + W, r)]

/-- The list the normal branch of `append_current_root_hash_to_historical`
builds before trimming: the old ring, synthetic fill-in entries from
`latest + W` up to the last finished window (all carrying the old tail
root), and the current-window entry with the handle's root. -/
def normalAppended (W now : Nat) (rs : List (Nat × Root)) (d : Nat × Root)
    (r : Root) : List (Nat × Root) :=
  rs ++ (List.range ((now / W * W - (rs.getLastD d).1) / W)).map
      (fun i => ((rs.getLastD d).1 + W * (i + 1), (rs.getLastD d).2))
    ++ [(now / W * W + W, r)]

/-- Concrete 20-byte addresses and 32-byte hashes for the spec scenarios. -/
def addrA : Addr := List.replicate 20 1

def addrB : Addr := List.replicate 20 2

def hashH1 : Hash := List.replicate 32 170

def hashH2 : Hash := List.replicate 32 187

def rootR0 : Root := [(addrA, hashH1)]

def rootR1 : Root := triePut rootR0 addrB hashH2

/-- A store with none of the chain-head keys present. -/
def emptyDB : DB := { currentRoot := none, ring := none, chron := [] }

/-- Scenario S4 input: ring `[(1000, R0)]`, handle root `R0`, clock at
`10000`, `W = 1000`, `N = 4`. -/
def offlineIn : Handle :=
  { db := { currentRoot := none, ring := some [(1000, rootR0)], chron := [] },
    trie := rootR0 }

/-- What the code actually stores for scenario S4. -/
def offlineOutRing : List (Nat × Root) :=
  [(6000, rootR0), (7000, rootR0), (8000, rootR0), (9000, rootR0),
   (11000, rootR0)]

/-- Scenario S3 input for the late-block retroactive update. -/
def s3In : Handle :=
  { db := { currentRoot := none,
            ring := some [(9000, rootR0), (10000, rootR0), (11000, rootR1)],
            chron := [] },
    trie := rootR1 }

/-- Scenario S2 input: ring `[(11000, R0)]`, handle at `R0`, before the
`set_head`/`commit` pair runs at clock `12500`. -/
def s2In : Handle :=
  { db := { currentRoot := none, ring := some [(11000, rootR0)], chron := [] },
    trie := rootR0 }

/-- Block hashes for the scenario-S5 chronological inserts. -/
def hashHa : Bytes := [1]

def hashHb : Bytes := [2]

def hashHc : Bytes := [3]

/-- The store after the first S5 insert: window `11000` holds
`[(11250, H_a)]`. -/
def s5Mid : DB :=
  { currentRoot := none, ring := none,
    chron := [(11000, [(11250, hashHa)])] }

theorem trieGet_triePut_self (t : Root) (k : Addr) (v : Hash) :
    trieGet (triePut t k v) k = some v := by
  induction t with
  | nil => simp [triePut, trieGet]
  | cons p rest ih =>
    by_cases hpk : p.1 = k
    · simp [triePut, hpk, trieGet]
    · simp [triePut, hpk, trieGet, ih]

theorem lt_lastFinished_add (W now : Nat) (hW : 0 < W) :
    now < now / W * W + W := by
  have h1 := Nat.div_add_mod now W
  have h2 : now % W < W := Nat.mod_lt _ hW
  have h3 : W * (now / W) = now / W * W := Nat.mul_comm _ _
  omega

theorem deleteWindows_ok (W : Nat) (db : DB) (ws : List Nat)
    (h : ∀ w ∈ ws, w % W = 0 ∧ w < 2 ^ 256) :
    deleteWindows W db ws = .ok { db with chron := chronDelAll db.chron ws } := by
  induction ws generalizing db with
  | nil => rfl
  | cons w rest ih =>
    have h1 := h w (List.mem_cons_self _ _)
    have h2 : isUint256 w = true := decide_eq_true h1.2
    unfold deleteWindows delete_chronological_block_window
    rw [h2]
    simp only [if_true, h1.1, ne_eq, not_true_eq_false, if_false,
      decide_True]
    rw [ih _ (fun x hx => h x (List.mem_cons_of_mem _ hx))]
    rfl

theorem pyRangeStep_mem {a b step w : Nat} (hstep : 0 < step)
    (hw : w ∈ pyRangeStep a b step) :
    a ≤ w ∧ w < b ∧ w % step = a % step := by
  unfold pyRangeStep at hw
  simp only [List.mem_map, List.mem_range] at hw
  obtain ⟨i, hi, rfl⟩ := hw
  refine ⟨Nat.le_add_right _ _, ?_, by simp [Nat.add_mul_mod_self_left]⟩
  have h1 : i + 1 ≤ (b - a + step - 1) / step := hi
  have h2 : (b - a + step - 1) / step * step ≤ b - a + step - 1 :=
    Nat.div_mul_le_self _ _
  have h3 : (i + 1) * step ≤ (b - a + step - 1) / step * step :=
    Nat.mul_le_mul_right _ h1
  have h4 : (i + 1) * step = i * step + step := by ring
  have h5 : step * i = i * step := Nat.mul_comm _ _
  omega

theorem dropLast_append_getLastD {α : Type} :
    ∀ (l : List α) (d : α), l ≠ [] → l.dropLast ++ [l.getLastD d] = l
  | [], _, h => absurd rfl h
  | [a], d, _ => rfl
  | a :: b :: t, d, _ => by
    have ih := dropLast_append_getLastD (b :: t) a (by simp)
    simp only [List.getLastD_cons] at ih
    simp only [List.dropLast_cons₂, List.getLastD_cons, List.cons_append]
    rw [ih]

theorem ringWindows_getLastD (l : List (Nat × Root)) (d : Nat × Root) :
    (ringWindows l).getLastD d.1 = (l.getLastD d).1 := by
  induction l generalizing d with
  | nil => rfl
  | cons p rest ih =>
    simp only [ringWindows, List.map_cons, List.getLastD_cons]
    simpa only [ringWindows] using ih p

theorem ringWindows_updateLast (l : List (Nat × Root)) (d : Nat × Root)
    (r : Root) (hne : l ≠ []) :
    ringWindows (l.dropLast ++ [((l.getLastD d).1, r)]) = ringWindows l := by
  unfold ringWindows
  rw [List.map_append, List.map_dropLast]
  have h1 : (l.getLastD d).1 = (l.map (fun p => p.1)).getLastD d.1 := by
    simpa only [ringWindows] using (ringWindows_getLastD l d).symm
  simp only [List.map_cons, List.map_nil]
  rw [h1]
  exact dropLast_append_getLastD _ _ (by simpa using hne)

theorem getLastD_mem {α : Type} :
    ∀ (l : List α) (d : α), l ≠ [] → l.getLastD d ∈ l
  | [], _, h => absurd rfl h
  | [a], d, _ => by simp
  | a :: b :: t, d, _ => by
    rw [List.getLastD_cons]
    exact List.mem_cons_of_mem _ (getLastD_mem (b :: t) a (by simp))

theorem append_ring_none (W N now : Nat) (h : Handle)
    (hring : h.db.ring = none) :
    append_current_root_hash_to_historical W N now h =
      .ok { h with db := { h.db with ring := some [(now / W * W + W, h.trie)] } } := by
  unfold append_current_root_hash_to_historical save_historical_root_hashes
  rw [hring]

theorem append_update_eq (W N now : Nat) (h : Handle) (first : Nat × Root)
    (rest : List (Nat × Root)) (hring : h.db.ring = some (first :: rest))
    (hlt : now / W * W < ((first :: rest).getLastD first).1) :
    append_current_root_hash_to_historical W N now h =
      .ok { h with db := { h.db with ring := some ((first :: rest).dropLast
              ++ [(((first :: rest).getLastD first).1, h.trie)]) } } := by
  unfold append_current_root_hash_to_historical save_historical_root_hashes
  rw [hring]
  simp only [if_pos hlt]

theorem headD_range_map (W N now : Nat) (r2 : Root)
    (tail : List (Nat × Root)) (d : Nat × Root) (hN : 0 < N) :
    (((List.range N).map (fun i => (now - N * W + W * i, r2)) ++ tail).headD d).1
      = now - N * W := by
  obtain ⟨M, rfl⟩ : ∃ M, N = M + 1 := ⟨N - 1, by omega⟩
  simp [List.range_succ_eq_map]

theorem append_offline_eq (W N now : Nat) (h : Handle) (first : Nat × Root)
    (rest : List (Nat × Root)) (hW : 0 < W) (hN : 0 < N)
    (hring : h.db.ring = some (first :: rest))
    (hoff : ((first :: rest).getLastD first).1 + N * W < now)
    (halign : first.1 % W = 0) (hnow : now < 2 ^ 256) :
    append_current_root_hash_to_historical W N now h =
      .ok { db := { currentRoot := h.db.currentRoot,
                    ring := some (offlineNewRing W N now (first :: rest) first
                        h.trie),
                    chron := chronDelAll h.db.chron
                        (pyRangeStep first.1 (now - N * W) W) },
            trie := h.trie } := by
  obtain ⟨⟨cur, rg, chron⟩, trie⟩ := h
  simp only at hring
  subst hring
  have hWle : W ≤ N * W := by
    calc W = 1 * W := (Nat.one_mul W).symm
    _ ≤ N * W := Nat.mul_le_mul_right W hN
  have hlf := lt_lastFinished_add W now hW
  have hle : ¬ now / W * W < ((first :: rest).getLastD first).1 := by omega
  have hdel := deleteWindows_ok W
    { currentRoot := cur,
      ring := some (offlineNewRing W N now (first :: rest) first trie),
      chron := chron }
    (pyRangeStep first.1 (now - N * W) W)
    (fun w hw => by
      obtain ⟨h1, h2, h3⟩ := pyRangeStep_mem hW hw
      exact ⟨by omega, by omega⟩)
  unfold append_current_root_hash_to_historical
  simp only [gt_iff_lt, if_neg hle, if_pos hoff]
  rw [headD_range_map W N now _ _ _ hN]
  unfold save_historical_root_hashes
  simp only []
  rw [show ((List.range N).map
        (fun i => (now - N * W + W * i, ((first :: rest).getLastD first).2))
      ++ [(now / W * W + W, trie)])
      = offlineNewRing W N now (first :: rest) first trie from rfl]
  rw [hdel]

theorem pyTrimKeepLast_subset (n : Nat) (l : List (Nat × Root)) :
    pyTrimKeepLast n l ⊆ l := by
  unfold pyTrimKeepLast
  by_cases hn : n = 0
  · simp [hn]
  · simp only [hn, if_false]
    exact List.drop_subset _ _

theorem headD_lt_bound (l : List (Nat × Root)) (d : Nat × Root) (B : Nat)
    (hl : ∀ p ∈ l, p.1 < B) (hd : d.1 < B) : (l.headD d).1 < B := by
  cases l with
  | nil => exact hd
  | cons p t => exact hl p (List.mem_cons_self _ _)

theorem normalAppended_bound (W now : Nat) (rs : List (Nat × Root))
    (d : Nat × Root) (r : Root) (hW : 0 < W)
    (hbound : ∀ p ∈ rs, p.1 < 2 ^ 256) (hd : rs.getLastD d ∈ rs)
    (hnow : now + W < 2 ^ 256) :
    ∀ p ∈ normalAppended W now rs d r, p.1 < 2 ^ 256 := by
  intro p hp
  have hlat : (rs.getLastD d).1 < 2 ^ 256 := hbound _ hd
  have hlf : now / W * W ≤ now := Nat.div_mul_le_self _ _
  unfold normalAppended at hp
  simp only [List.mem_append, List.mem_map, List.mem_range,
    List.mem_singleton] at hp
  rcases hp with (hp | ⟨i, hi, rfl⟩) | rfl
  · exact hbound p hp
  · have h1 : i + 1 ≤ (now / W * W - (rs.getLastD d).1) / W := hi
    have h2 : (i + 1) * W ≤ (now / W * W - (rs.getLastD d).1) / W * W :=
      Nat.mul_le_mul_right _ h1
    have h3 : (now / W * W - (rs.getLastD d).1) / W * W
        ≤ now / W * W - (rs.getLastD d).1 := Nat.div_mul_le_self _ _
    have h4 : W * (i + 1) = (i + 1) * W := Nat.mul_comm _ _
    simp only []
    omega
  · simp only []
    omega

theorem append_normal_eq (W N now : Nat) (h : Handle) (first : Nat × Root)
    (rest : List (Nat × Root)) (hW : 0 < W)
    (hring : h.db.ring = some (first :: rest))
    (hlat : ((first :: rest).getLastD first).1 ≤ now / W * W)
    (hnotoff : now ≤ ((first :: rest).getLastD first).1 + N * W)
    (halign : first.1 % W = 0)
    (hbound : ∀ p ∈ first :: rest, p.1 < 2 ^ 256)
    (hnow : now + W < 2 ^ 256) :
    append_current_root_hash_to_historical W N now h =
      .ok { db := { currentRoot := h.db.currentRoot,
                    ring := some (pyTrimKeepLast N
                        (normalAppended W now (first :: rest) first h.trie)),
                    chron := chronDelAll h.db.chron
                        (pyRangeStep first.1
                          ((pyTrimKeepLast N (normalAppended W now
                              (first :: rest) first h.trie)).headD first).1 W) },
            trie := h.trie } := by
  obtain ⟨⟨cur, rg, chron⟩, trie⟩ := h
  simp only at hring
  subst hring
  have hle : ¬ now / W * W < ((first :: rest).getLastD first).1 := by omega
  have hnooff : ¬ ((first :: rest).getLastD first).1 + N * W < now := by omega
  have happbound := normalAppended_bound W now (first :: rest) first trie hW
    hbound (getLastD_mem _ _ (by simp)) hnow
  have hheadlt : ((pyTrimKeepLast N (normalAppended W now (first :: rest)
      first trie)).headD first).1 < 2 ^ 256 :=
    headD_lt_bound _ _ _
      (fun p hp => happbound p (pyTrimKeepLast_subset _ _ hp))
      (hbound first (List.mem_cons_self _ _))
  have hdel := deleteWindows_ok W
    { currentRoot := cur,
      ring := some (pyTrimKeepLast N (normalAppended W now (first :: rest)
          first trie)),
      chron := chron }
    (pyRangeStep first.1
      ((pyTrimKeepLast N (normalAppended W now (first :: rest) first
          trie)).headD first).1 W)
    (fun w hw => by
      obtain ⟨h1, h2, h3⟩ := pyRangeStep_mem hW hw
      exact ⟨by omega, by omega⟩)
  unfold append_current_root_hash_to_historical
  simp only [gt_iff_lt, if_neg hle, if_neg hnooff]
  unfold save_historical_root_hashes
  simp only []
  rw [show ((first :: rest)
      ++ (List.range ((now / W * W - ((first :: rest).getLastD first).1) / W)).map
          (fun i => (((first :: rest).getLastD first).1 + W * (i + 1),
                     ((first :: rest).getLastD first).2))
      ++ [(now / W * W + W, trie)])
      = normalAppended W now (first :: rest) first trie from rfl]
  rw [hdel]

/-- C1: `add_block_hash_to_timestamp` does not behave as specified: at the
scenario-S3 input (`W = 1000`, `N = 4`, clock `10000`, canonical address,
aligned past timestamp `9000`, non-empty ring) the call does not terminate
normally but raises `TypeError`, because the rewrite loop's starting index is
computed with true division and handed to `range` as a `float`. -/
theorem C1_add_block_hash_to_timestamp_raises :
    add_block_hash_to_timestamp 1000 4 10000 s3In addrA hashH2 9000 =
      .error .typeError := by rfl

/-- C2 counterexample: with `W = 1000`, `N = 4`, prior ring `[(1000, R0)]`
and `now = 10000`, the offline-reset branch stores windows
`[6000, 7000, 8000, 9000, 11000]`, not the claimed
`[7000, 8000, 9000, 10000, 11000]`. -/
theorem C2_counterexample :
    append_current_root_hash_to_historical 1000 4 10000 offlineIn =
      .ok { db := { currentRoot := none, ring := some offlineOutRing,
                    chron := [] },
            trie := rootR0 } ∧
    ringWindows offlineOutRing = [6000, 7000, 8000, 9000, 11000] ∧
    ringWindows offlineOutRing ≠ [7000, 8000, 9000, 10000, 11000] :=
  ⟨by rfl, by rfl, by decide⟩

/-- C2 (amended): when the latest ring window is older than
`now - N * W`, the old ring is discarded and replaced by `N` synthetic
entries starting at `now - N * W`, spaced by `W`, each carrying the old
ring's last root, followed by `(current_window, self.root_hash)`; concretely
with `W = 1000`, `N = 4`, prior ring `[(1000, R0)]` and `now = 10000` the
new ring has windows `{6000, 7000, 8000, 9000, 11000}` (skipping the last
finished window `10000`), the first four roots equal to `R0` and the last
equal to `R0`. -/
theorem C2_offline_reset (W N now : Nat) (h : Handle) (first : Nat × Root)
    (rest : List (Nat × Root)) (hW : 0 < W) (hN : 0 < N)
    (hring : h.db.ring = some (first :: rest))
    (hoff : ((first :: rest).getLastD first).1 + N * W < now)
    (halign : first.1 % W = 0) (hnow : now < 2 ^ 256) :
    append_current_root_hash_to_historical W N now h =
      .ok { db := { currentRoot := h.db.currentRoot,
                    ring := some ((List.range N).map
                        (fun i => (now - N * W + W * i,
                                   ((first :: rest).getLastD first).2))
                      ++ [(now / W * W + W, h.trie)]),
                    chron := chronDelAll h.db.chron
                        (pyRangeStep first.1 (now - N * W) W) },
            trie := h.trie } :=
  append_offline_eq W N now h first rest hW hN hring hoff halign hnow

theorem C2_offline_reset_witness :
    ((0 : Nat) < 1000 ∧ (0 : Nat) < 4 ∧
      offlineIn.db.ring = some [(1000, rootR0)] ∧
      (([(1000, rootR0)] : List (Nat × Root)).getLastD (1000, rootR0)).1
          + 4 * 1000 < 10000 ∧
      (1000 : Nat) % 1000 = 0 ∧ (10000 : Nat) < 2 ^ 256) ∧
    append_current_root_hash_to_historical 1000 4 10000 offlineIn =
      .ok { db := { currentRoot := offlineIn.db.currentRoot,
                    ring := some ((List.range 4).map
                        (fun i => (10000 - 4 * 1000 + 1000 * i,
                          (([(1000, rootR0)] : List (Nat × Root)).getLastD
                              (1000, rootR0)).2))
                      ++ [(10000 / 1000 * 1000 + 1000, offlineIn.trie)]),
                    chron := chronDelAll offlineIn.db.chron
                        (pyRangeStep 1000 (10000 - 4 * 1000) 1000) },
            trie := offlineIn.trie } ∧
    ((List.range 4).map (fun i => (10000 - 4 * 1000 + 1000 * i,
          (([(1000, rootR0)] : List (Nat × Root)).getLastD (1000, rootR0)).2))
        ++ [(10000 / 1000 * 1000 + 1000, offlineIn.trie)])
      = offlineOutRing :=
  ⟨⟨by decide, by decide, by rfl, by decide, by decide, by decide⟩,
   C2_offline_reset 1000 4 10000 offlineIn (1000, rootR0) [] (by decide)
     (by decide) (by rfl) (by decide) (by decide) (by decide),
   by rfl⟩

/-- C3 counterexample: the ring `[(1000, R0)]` satisfies the claimed
invariant, yet with `W = 1000`, `N = 4`, `now = 10000` the offline-reset
branch of `promote_current_to_ring` produces a ring whose consecutive
windows are not all exactly `W` apart (`9000` is followed by `11000`). -/
theorem C3_counterexample :
    ringInvariant 1000 4 [(1000, rootR0)] ∧
    append_current_root_hash_to_historical 1000 4 10000 offlineIn =
      .ok { db := { currentRoot := none, ring := some offlineOutRing,
                    chron := [] },
            trie := rootR0 } ∧
    ¬ ringInvariant 1000 4 offlineOutRing :=
  ⟨⟨by simp [ringWindows], by simp [ringWindows], by simp⟩, by rfl,
   fun hinv => by
    have h2 := hinv.2.1
    simp [offlineOutRing, ringWindows, List.chain'_cons] at h2⟩

/-- C8: within one handle lifetime a read observes an earlier write through
the same handle even though nothing has been committed: after
`set_chain_head_hash(a, h)`, `get_chain_head_hash(a)` on the same handle
returns `h`. -/
theorem C8_read_own_write (h : Handle) (address : Addr) (head_hash : Hash)
    (ha : isCanonicalAddress address = true) :
    ∃ h2, set_chain_head_hash h address head_hash = .ok h2 ∧
      get_chain_head_hash h2 address = .ok (some head_hash) := by
  refine ⟨{ h with trie := triePut h.trie address head_hash }, ?_, ?_⟩
  · simp [set_chain_head_hash, ha]
  · simp [get_chain_head_hash, ha, trieGet_triePut_self]

theorem C8_read_own_write_witness :
    isCanonicalAddress addrA = true ∧
    ∃ h2, set_chain_head_hash { db := emptyDB, trie := [] } addrA hashH1
        = .ok h2 ∧
      get_chain_head_hash h2 addrA = .ok (some hashH1) :=
  ⟨by decide, C8_read_own_write { db := emptyDB, trie := [] } addrA hashH1
    (by decide)⟩

/-- C9: a chronological insert whose timestamp is at least
`N * W` seconds in the past (`ts ≤ now - N * W` over the integers) is a
no-op: it raises nothing and leaves the store unchanged. -/
theorem C9_stale_chronological_insert_noop (W N now : Nat) (db : DB)
    (head_hash : Bytes) (timestamp : Nat)
    (hu : isUint256 timestamp = true) (hold : timestamp + N * W ≤ now) :
    add_block_hash_to_chronological_window W N now db head_hash timestamp
      = .ok db := by
  unfold add_block_hash_to_chronological_window
  rw [hu]
  simp only [if_true]
  rw [if_neg (by omega)]

theorem C9_stale_chronological_insert_noop_witness :
    isUint256 6000 = true ∧ (6000 : Nat) + 4 * 1000 ≤ 10000 ∧
    add_block_hash_to_chronological_window 1000 4 10000 emptyDB hashH1 6000
      = .ok emptyDB :=
  ⟨by decide, by decide,
   C9_stale_chronological_insert_noop 1000 4 10000 emptyDB hashH1 6000
     (by decide) (by decide)⟩

theorem chronInsert_self_mem (ts : Nat) (hh : Bytes) :
    ∀ l : List (Nat × Bytes), (ts, hh) ∈ chronInsert ts hh l
  | [] => by simp [chronInsert]
  | p :: rest => by
    unfold chronInsert
    by_cases h1 : rest.any (fun q => decide (q.1 ≤ ts)) = true
    · simp only [h1, if_true]
      exact List.mem_cons_of_mem _ (chronInsert_self_mem ts hh rest)
    · simp only [h1, if_false]
      by_cases h2 : p.1 ≤ ts
      · simp [h2]
      · simp [h2]

/-- C10: `add_block_hash_to_chronological_window` performs no
future-timestamp or alignment validation: for any uint256 timestamp newer
than `now - N * W` — arbitrarily far in the future included — the call
succeeds and stores the pair under the window `ts / W * W`, whereas
`add_block_hash_to_timestamp` and `get_chain_head_hash_at_timestamp` reject
any timestamp greater than `now`. -/
theorem C10_no_future_or_alignment_check (W N now : Nat) (db : DB)
    (h2 : Handle) (address : Addr) (head_hash : Bytes) (timestamp : Nat)
    (hW : 0 < W) (hu : isUint256 timestamp = true)
    (hrecent : now < timestamp + N * W)
    (ha : isCanonicalAddress address = true) :
    (∃ l, add_block_hash_to_chronological_window W N now db head_hash
          timestamp
        = .ok { db with chron := chronSet db.chron (timestamp / W * W) l } ∧
      (timestamp, head_hash) ∈ l) ∧
    (now < timestamp →
      add_block_hash_to_timestamp W N now h2 address head_hash timestamp
          = .error .invalidHeadRootTimestamp ∧
      get_chain_head_hash_at_timestamp W now h2 address timestamp
          = .error .invalidHeadRootTimestamp) := by
  constructor
  · have hts : timestamp < 2 ^ 256 := of_decide_eq_true hu
    have hwu : isUint256 (timestamp / W * W) = true :=
      decide_eq_true (lt_of_le_of_lt (Nat.div_mul_le_self _ _) hts)
    have hwal : timestamp / W * W % W = 0 := Nat.mul_mod_left _ _
    unfold add_block_hash_to_chronological_window
    rw [hu]
    simp only [if_true, if_pos hrecent, hwu, hwal, ne_eq, not_true_eq_false,
      if_false]
    cases hdata : chronGet db.chron (timestamp / W * W) with
    | none => exact ⟨[(timestamp, head_hash)], rfl, by simp⟩
    | some data =>
      exact ⟨chronInsert timestamp head_hash data, rfl,
        chronInsert_self_mem _ _ _⟩
  · intro hfut
    constructor
    · unfold add_block_hash_to_timestamp
      rw [ha, hu]
      simp [hfut]
    · unfold get_chain_head_hash_at_timestamp
      rw [ha, hu]
      simp [hfut]

theorem C10_no_future_or_alignment_check_witness :
    ((0 : Nat) < 1000 ∧ isUint256 (2 ^ 200) = true ∧
      (10000 : Nat) < 2 ^ 200 + 4 * 1000 ∧
      isCanonicalAddress addrA = true ∧ (10000 : Nat) < 2 ^ 200) ∧
    (∃ l, add_block_hash_to_chronological_window 1000 4 10000 emptyDB hashH1
          (2 ^ 200)
        = .ok { emptyDB with
                chron := chronSet emptyDB.chron (2 ^ 200 / 1000 * 1000) l } ∧
      (2 ^ 200, hashH1) ∈ l) ∧
    (add_block_hash_to_timestamp 1000 4 10000 s3In addrA hashH1 (2 ^ 200)
        = .error .invalidHeadRootTimestamp ∧
      get_chain_head_hash_at_timestamp 1000 10000 s3In addrA (2 ^ 200)
        = .error .invalidHeadRootTimestamp) :=
  ⟨⟨by decide, by decide, by decide, by decide, by decide⟩,
   (C10_no_future_or_alignment_check 1000 4 10000 emptyDB s3In addrA hashH1
      (2 ^ 200) (by decide) (by decide) (by decide) (by decide)).1,
   (C10_no_future_or_alignment_check 1000 4 10000 emptyDB s3In addrA hashH1
      (2 ^ 200) (by decide) (by decide) (by decide) (by decide)).2
     (by decide)⟩

theorem dictLookup_eq_none (l : List (Nat × Root)) (k : Nat)
    (h : ∀ p ∈ l, p.1 ≠ k) : dictLookup l k = none := by
  induction l with
  | nil => rfl
  | cons p rest ih =>
    unfold dictLookup
    rw [ih (fun q hq => h q (List.mem_cons_of_mem _ hq))]
    simp [h p (List.mem_cons_self _ _)]

theorem dictLookup_eq_some (l : List (Nat × Root)) (k : Nat) (r : Root)
    (hmono : (ringWindows l).Chain' (fun a b => a < b))
    (hmem : (k, r) ∈ l) : dictLookup l k = some r := by
  induction l with
  | nil => cases hmem
  | cons p rest ih =>
    have hmono2 : (ringWindows rest).Chain' (fun a b => a < b) := by
      have h0 : ringWindows (p :: rest) = p.1 :: ringWindows rest := rfl
      rw [h0] at hmono
      exact hmono.tail
    rcases List.mem_cons.mp hmem with h1 | h2
    · have hpair : List.Pairwise (fun a b => a < b) (ringWindows (p :: rest)) :=
        List.chain'_iff_pairwise.mp hmono
      have hrest : ∀ q ∈ rest, q.1 ≠ k := by
        intro q hq
        have h0 : ringWindows (p :: rest) = p.1 :: ringWindows rest := rfl
        rw [h0] at hpair
        have hlt : p.1 < q.1 :=
          (List.pairwise_cons.mp hpair).1 q.1
            (List.mem_map_of_mem (fun x => x.1) hq)
        have hp1 : p.1 = k := by rw [← h1]
        omega
      unfold dictLookup
      rw [dictLookup_eq_none rest k hrest, ← h1]
      simp
    · unfold dictLookup
      rw [ih hmono2 h2]

/-- C5: `get_chain_head_hash_at_timestamp` raises `InvalidHeadRootTimestamp`
exactly when the timestamp is in the future or unaligned; otherwise it
returns absent when the ring is absent or the timestamp precedes the first
window, reads the snapshot of the matching ring entry when one exists, and
falls back to the latest entry's root when none does. -/
theorem C5_get_head_at_timestamp_spec (W now : Nat) (h : Handle)
    (address : Addr) (timestamp : Nat)
    (ha : isCanonicalAddress address = true)
    (hu : isUint256 timestamp = true) :
    (get_chain_head_hash_at_timestamp W now h address timestamp =
          .error .invalidHeadRootTimestamp
        ↔ (now < timestamp ∨ timestamp % W ≠ 0)) ∧
    (timestamp ≤ now → timestamp % W = 0 →
      (h.db.ring = none →
        get_chain_head_hash_at_timestamp W now h address timestamp
          = .ok none) ∧
      (∀ first rest, h.db.ring = some (first :: rest) →
        (timestamp < first.1 →
          get_chain_head_hash_at_timestamp W now h address timestamp
            = .ok none) ∧
        (first.1 ≤ timestamp →
          ((ringWindows (first :: rest)).Chain' (fun a b => a < b) →
            ∀ r, (timestamp, r) ∈ first :: rest →
              get_chain_head_hash_at_timestamp W now h address timestamp
                = .ok (trieGet r address)) ∧
          ((∀ p ∈ first :: rest, p.1 ≠ timestamp) →
            get_chain_head_hash_at_timestamp W now h address timestamp
              = .ok (trieGet ((first :: rest).getLastD first).2 address))))) := by
  obtain ⟨⟨cur, rg, chron⟩, trie⟩ := h
  unfold get_chain_head_hash_at_timestamp
  rw [ha, hu]
  simp only [if_true, gt_iff_lt]
  constructor
  · by_cases hfut : now < timestamp
    · simp [hfut]
    · by_cases hal : timestamp % W = 0
      · simp only [if_neg hfut, hal, ne_eq, not_true_eq_false, if_false]
        cases rg with
        | none => simp [hfut, hal]
        | some l =>
          cases l with
          | nil => simp [hfut, hal]
          | cons first rest =>
            by_cases hlt : timestamp < first.1 <;> simp [hlt, hfut, hal]
      · simp [hfut, hal]
  · intro hts hal
    simp only [if_neg (Nat.not_lt.mpr hts), hal, ne_eq, not_true_eq_false,
      if_false]
    refine ⟨?_, ?_⟩
    · intro hnone
      rw [hnone]
    · intro first rest hsome
      subst hsome
      refine ⟨fun hlt => by simp [hlt], fun hge => ⟨?_, ?_⟩⟩
      · intro hmono r hmem
        simp [Nat.not_lt.mpr hge,
          dictLookup_eq_some (first :: rest) timestamp r hmono hmem]
      · intro hnm
        simp [Nat.not_lt.mpr hge,
          dictLookup_eq_none (first :: rest) timestamp hnm]

theorem C5_get_head_at_timestamp_spec_witness :
    (isCanonicalAddress addrA = true ∧ isUint256 9000 = true) ∧
    ((get_chain_head_hash_at_timestamp 1000 10000 s3In addrA 9000 =
          .error .invalidHeadRootTimestamp
        ↔ ((10000 : Nat) < 9000 ∨ (9000 : Nat) % 1000 ≠ 0)) ∧
      get_chain_head_hash_at_timestamp 1000 10000 s3In addrA 9000
        = .ok (trieGet rootR0 addrA)) :=
  ⟨⟨by decide, by decide⟩,
   (C5_get_head_at_timestamp_spec 1000 10000 s3In addrA 9000 (by decide)
      (by decide)).1,
   ((((C5_get_head_at_timestamp_spec 1000 10000 s3In addrA 9000 (by decide)
        (by decide)).2 (by decide) (by decide)).2 (9000, rootR0)
      [(10000, rootR0), (11000, rootR1)] rfl).2 (by decide)).1
     (by simp [ringWindows, rootR0, rootR1, List.chain'_cons]) rootR0
     (by simp)⟩

theorem chronInsert_mem_of (ts : Nat) (hh : Bytes) (x : Nat × Bytes) :
    ∀ l : List (Nat × Bytes), x ∈ chronInsert ts hh l → x ∈ l ∨ x = (ts, hh)
  | [] => by
    simp [chronInsert]
  | p :: rest => by
    unfold chronInsert
    by_cases h1 : rest.any (fun q => decide (q.1 ≤ ts)) = true
    · rw [if_pos h1]
      simp only [List.mem_cons]
      rintro (rfl | hx)
      · exact .inl (.inl rfl)
      · rcases chronInsert_mem_of ts hh x rest hx with h | h
        · exact .inl (.inr h)
        · exact .inr h
    · rw [if_neg h1]
      by_cases h2 : p.1 ≤ ts
      · rw [if_pos h2]
        simp only [List.mem_cons]
        rintro (rfl | rfl | hx)
        · exact .inl (.inl rfl)
        · exact .inr rfl
        · exact .inl (.inr hx)
      · rw [if_neg h2]
        simp only [List.mem_cons]
        rintro (rfl | hx)
        · exact .inr rfl
        · exact .inl hx

theorem chronInsert_pairwise (ts : Nat) (hh : Bytes) :
    ∀ l : List (Nat × Bytes), l.Pairwise (fun p q => p.1 ≤ q.1) →
      (chronInsert ts hh l).Pairwise (fun p q => p.1 ≤ q.1)
  | [], _ => by simp [chronInsert]
  | p :: rest, hs => by
    obtain ⟨hp, hrest⟩ := List.pairwise_cons.mp hs
    unfold chronInsert
    by_cases h1 : rest.any (fun q => decide (q.1 ≤ ts)) = true
    · rw [if_pos h1, List.pairwise_cons]
      refine ⟨?_, chronInsert_pairwise ts hh rest hrest⟩
      intro x hx
      rcases chronInsert_mem_of ts hh x rest hx with h | h
      · exact hp x h
      · obtain ⟨q, hq, hqts⟩ := List.any_eq_true.mp h1
        rw [h]
        exact le_trans (hp q hq) (of_decide_eq_true hqts)
    · have hall : ∀ q ∈ rest, ts < q.1 := by
        intro q hq
        rcases Nat.lt_or_ge ts q.1 with hlt | hge
        · exact hlt
        · exact absurd (List.any_eq_true.mpr ⟨q, hq, decide_eq_true hge⟩) h1
      rw [if_neg h1]
      by_cases h2 : p.1 ≤ ts
      · rw [if_pos h2, List.pairwise_cons]
        constructor
        · intro x hx
          rcases List.mem_cons.mp hx with rfl | hx2
          · exact h2
          · exact hp x hx2
        · rw [List.pairwise_cons]
          exact ⟨fun q hq => le_of_lt (hall q hq), hrest⟩
      · rw [if_neg h2, List.pairwise_cons]
        constructor
        · intro x hx
          rcases List.mem_cons.mp hx with rfl | hx2
          · exact le_of_lt (Nat.not_le.mp h2)
          · exact le_of_lt (hall x hx2)
        · exact hs

theorem chronInsert_eq_sorted (ts : Nat) (hh : Bytes) :
    ∀ l : List (Nat × Bytes), l.Pairwise (fun p q => p.1 ≤ q.1) →
      chronInsert ts hh l
        = l.takeWhile (fun p => decide (p.1 ≤ ts))
          ++ (ts, hh) :: l.dropWhile (fun p => decide (p.1 ≤ ts))
  | [], _ => by simp [chronInsert]
  | p :: rest, hs => by
    obtain ⟨hp, hrest⟩ := List.pairwise_cons.mp hs
    unfold chronInsert
    by_cases h1 : rest.any (fun q => decide (q.1 ≤ ts)) = true
    · obtain ⟨q, hq, hqts⟩ := List.any_eq_true.mp h1
      have hpts : p.1 ≤ ts := le_trans (hp q hq) (of_decide_eq_true hqts)
      rw [if_pos h1]
      rw [chronInsert_eq_sorted ts hh rest hrest,
        List.takeWhile_cons_of_pos (by simpa using hpts),
        List.dropWhile_cons_of_pos (by simpa using hpts)]
      simp
    · have hall : ∀ q ∈ rest, ts < q.1 := by
        intro q hq
        rcases Nat.lt_or_ge ts q.1 with hlt | hge
        · exact hlt
        · exact absurd (List.any_eq_true.mpr ⟨q, hq, decide_eq_true hge⟩) h1
      have h3 : rest.takeWhile (fun p => decide (p.1 ≤ ts)) = [] := by
        cases rest with
        | nil => rfl
        | cons q t =>
          exact List.takeWhile_cons_of_neg
            (by simpa using Nat.not_le.mpr (hall q (List.mem_cons_self _ _)))
      have h4 : rest.dropWhile (fun p => decide (p.1 ≤ ts)) = rest := by
        cases rest with
        | nil => rfl
        | cons q t =>
          exact List.dropWhile_cons_of_neg
            (by simpa using Nat.not_le.mpr (hall q (List.mem_cons_self _ _)))
      rw [if_neg h1]
      by_cases h2 : p.1 ≤ ts
      · rw [if_pos h2]
        rw [List.takeWhile_cons_of_pos (by simpa using h2),
          List.dropWhile_cons_of_pos (by simpa using h2), h3, h4]
        simp
      · rw [if_neg h2]
        rw [List.takeWhile_cons_of_neg (by simpa using h2),
          List.dropWhile_cons_of_neg (by simpa using h2)]
        simp

/-- C6: inserting into a stored, ascending chronological window whose window
is still recent enough places the new pair immediately after the last entry
with timestamp at most the new one (prepending when there is none), and the
stored list stays sorted ascending with insertion-order tie-break. -/
theorem C6_chronological_insert_sorted (W N now : Nat) (db : DB)
    (head_hash : Bytes) (timestamp w : Nat) (data : List (Nat × Bytes))
    (hW : 0 < W) (hu : isUint256 timestamp = true)
    (hrecent : now < timestamp + N * W)
    (hwin : timestamp / W * W = w) (hdata : chronGet db.chron w = some data)
    (hsorted : data.Pairwise (fun p q => p.1 ≤ q.1)) :
    add_block_hash_to_chronological_window W N now db head_hash timestamp
      = .ok { db with chron := (chronSet db.chron w
          (data.takeWhile (fun p => decide (p.1 ≤ timestamp))
            ++ (timestamp, head_hash)
              :: data.dropWhile (fun p => decide (p.1 ≤ timestamp)))) } ∧
    (data.takeWhile (fun p => decide (p.1 ≤ timestamp))
        ++ (timestamp, head_hash)
          :: data.dropWhile (fun p => decide (p.1 ≤ timestamp))).Pairwise
      (fun p q => p.1 ≤ q.1) := by
  have hts : timestamp < 2 ^ 256 := of_decide_eq_true hu
  have hwu : isUint256 (timestamp / W * W) = true :=
    decide_eq_true (lt_of_le_of_lt (Nat.div_mul_le_self _ _) hts)
  have hwal : timestamp / W * W % W = 0 := Nat.mul_mod_left _ _
  constructor
  · unfold add_block_hash_to_chronological_window
    rw [hu]
    simp only [if_true, if_pos hrecent, hwu, hwal, ne_eq, not_true_eq_false,
      if_false]
    rw [hwin, hdata]
    simp [chronInsert_eq_sorted timestamp head_hash data hsorted]
  · rw [← chronInsert_eq_sorted timestamp head_hash data hsorted]
    exact chronInsert_pairwise timestamp head_hash data hsorted

theorem C6_chronological_insert_sorted_witness :
    ((0 : Nat) < 1000 ∧ isUint256 11100 = true ∧
      (10000 : Nat) < 11100 + 4 * 1000 ∧ (11100 : Nat) / 1000 * 1000 = 11000 ∧
      chronGet s5Mid.chron 11000 = some [(11250, hashHa)] ∧
      ([(11250, hashHa)] : List (Nat × Bytes)).Pairwise
        (fun p q => p.1 ≤ q.1)) ∧
    add_block_hash_to_chronological_window 1000 4 10000 s5Mid hashHb 11100
      = .ok { s5Mid with chron := (chronSet s5Mid.chron 11000
          (([(11250, hashHa)] : List (Nat × Bytes)).takeWhile
              (fun p => decide (p.1 ≤ 11100))
            ++ (11100, hashHb)
              :: ([(11250, hashHa)] : List (Nat × Bytes)).dropWhile
                (fun p => decide (p.1 ≤ 11100)))) } ∧
    (add_block_hash_to_chronological_window 1000 4 10000 emptyDB hashHa 11250
        >>= fun d1 =>
          add_block_hash_to_chronological_window 1000 4 10000 d1 hashHb 11100
        >>= fun d2 =>
          add_block_hash_to_chronological_window 1000 4 10000 d2 hashHc 11900)
      = .ok { currentRoot := none, ring := none,
              chron := [(11000,
                [(11100, hashHb), (11250, hashHa), (11900, hashHc)])] } :=
  ⟨⟨by decide, by decide, by decide, by decide, by rfl, by simp⟩,
   (C6_chronological_insert_sorted 1000 4 10000 s5Mid hashHb 11100 11000
      [(11250, hashHa)] (by decide) (by decide) (by decide) (by decide)
      (by rfl) (by simp)).1,
   by rfl⟩

theorem spaced_aligned {W : Nat} :
    ∀ {x : Nat} {xs : List Nat},
      (x :: xs).Chain' (fun a b => b = a + W) → x % W = 0 →
      ∀ w ∈ x :: xs, w % W = 0 := by
  intro x xs
  induction xs generalizing x with
  | nil =>
    intro _ hx w hw
    simp only [List.mem_singleton] at hw
    rw [hw]
    exact hx
  | cons y ys ih =>
    intro hc hx w hw
    rw [List.chain'_cons] at hc
    obtain ⟨hxy, hc2⟩ := hc
    rcases List.mem_cons.mp hw with rfl | h2
    · exact hx
    · have hy : y % W = 0 := by
        rw [hxy, Nat.add_mod_right]
        exact hx
      exact ih hc2 hy w h2

theorem chain'_spaced_range_map (W k : Nat) (f : Nat → Nat)
    (hf : ∀ i, f (i + 1) = f i + W) :
    ((List.range k).map f).Chain' (fun x y => y = x + W) := by
  rw [List.chain'_map]
  cases k with
  | zero => simp
  | succ m =>
    rw [List.chain'_range_succ]
    intro i _
    exact hf i

theorem getLast?_eq_some_getLastD {α : Type} :
    ∀ (l : List α) (d : α), l ≠ [] → l.getLast? = some (l.getLastD d)
  | [], _, h => absurd rfl h
  | [_], _, _ => rfl
  | a :: b :: t, d, _ => by
    rw [List.getLast?_cons_cons, List.getLastD_cons]
    exact getLast?_eq_some_getLastD (b :: t) a (by simp)

theorem head?_range_map {α : Type} (f : Nat → α) (k : Nat) (hk : 0 < k) :
    ((List.range k).map f).head? = some (f 0) := by
  obtain ⟨m, rfl⟩ : ∃ m, k = m + 1 := ⟨k - 1, by omega⟩
  rw [List.range_succ_eq_map]
  simp

theorem getLast?_range_map {α : Type} (f : Nat → α) (m : Nat) :
    ((List.range (m + 1)).map f).getLast? = some (f m) := by
  rw [List.range_succ, List.map_append]
  simp

theorem offlineNewRing_windows (W N now : Nat) (rs : List (Nat × Root))
    (d : Nat × Root) (r : Root) :
    ringWindows (offlineNewRing W N now rs d r)
      = (List.range N).map (fun i => now - N * W + W * i)
        ++ [now / W * W + W] := by
  simp [offlineNewRing, ringWindows, List.map_append, List.map_map,
    Function.comp]

theorem normalAppended_windows (W now : Nat) (rs : List (Nat × Root))
    (d : Nat × Root) (r : Root) :
    ringWindows (normalAppended W now rs d r)
      = ringWindows rs
        ++ (List.range ((now / W * W - (rs.getLastD d).1) / W)).map
            (fun i => (rs.getLastD d).1 + W * (i + 1))
        ++ [now / W * W + W] := by
  simp [normalAppended, ringWindows, List.map_append, List.map_map,
    Function.comp]

theorem offline_windows_strict (W N now : Nat) (hW : 0 < W) (hN : 0 < N)
    (hle : N * W < now) :
    ((List.range N).map (fun i => now - N * W + W * i)
      ++ [now / W * W + W]).Chain' (fun a b => a < b) := by
  obtain ⟨M, rfl⟩ : ∃ M, N = M + 1 := ⟨N - 1, by omega⟩
  rw [List.chain'_append]
  refine ⟨?_, List.chain'_singleton _, ?_⟩
  · exact (chain'_spaced_range_map W _ _ (fun i => by ring)).imp
      (fun a b hab => by omega)
  · intro x hx y hy
    rw [getLast?_range_map] at hx
    simp only [List.head?_cons, Option.mem_some_iff] at hx hy
    have h1 := lt_lastFinished_add W now hW
    have h2 : (M + 1) * W = W * M + W := by ring
    omega

theorem normalAppended_windows_spaced (W now : Nat) (first : Nat × Root)
    (rest : List (Nat × Root)) (r : Root) (hW : 0 < W)
    (halign : first.1 % W = 0)
    (hspaced : (ringWindows (first :: rest)).Chain' (fun a b => b = a + W))
    (hlat : ((first :: rest).getLastD first).1 ≤ now / W * W) :
    (ringWindows (normalAppended W now (first :: rest) first r)).Chain'
      (fun a b => b = a + W) := by
  rw [normalAppended_windows]
  have hlatwin : (ringWindows (first :: rest)).getLastD first.1
      = ((first :: rest).getLastD first).1 := ringWindows_getLastD _ _
  have hlast : (ringWindows (first :: rest)).getLast?
      = some (((first :: rest).getLastD first).1) := by
    rw [getLast?_eq_some_getLastD (ringWindows (first :: rest)) first.1
      (by simp [ringWindows]), hlatwin]
  have hlal : ((first :: rest).getLastD first).1 % W = 0 := by
    have hmem := getLastD_mem (ringWindows (first :: rest)) first.1
      (by simp [ringWindows])
    rw [hlatwin] at hmem
    exact spaced_aligned hspaced halign _ hmem
  have hdvd : W ∣ (now / W * W - ((first :: rest).getLastD first).1) :=
    Nat.dvd_sub' (dvd_mul_left W (now / W))
      (Nat.dvd_of_mod_eq_zero hlal)
  have hk : W * ((now / W * W - ((first :: rest).getLastD first).1) / W)
      = now / W * W - ((first :: rest).getLastD first).1 :=
    Nat.mul_div_cancel' hdvd
  rw [List.chain'_append]
  refine ⟨?_, List.chain'_singleton _, ?_⟩
  · rw [List.chain'_append]
    refine ⟨hspaced, chain'_spaced_range_map W _ _ (fun i => by ring), ?_⟩
    intro x hx y hy
    rw [hlast] at hx
    rw [Option.mem_some_iff] at hx
    cases hk0 : (now / W * W - ((first :: rest).getLastD first).1) / W with
    | zero =>
      rw [hk0] at hy
      simp at hy
    | succ m =>
      rw [hk0] at hy
      rw [head?_range_map _ _ (Nat.succ_pos m), Option.mem_some_iff] at hy
      omega
  · intro x hx y hy
    simp only [List.head?_cons, Option.mem_some_iff] at hy
    cases hk0 : (now / W * W - ((first :: rest).getLastD first).1) / W with
    | zero =>
      rw [hk0] at hx
      simp only [List.range_zero, List.map_nil, List.append_nil] at hx
      rw [hlast, Option.mem_some_iff] at hx
      rw [hk0] at hk
      omega
    | succ m =>
      rw [hk0] at hx
      rw [List.getLast?_append_of_ne_nil _ (by simp),
        getLast?_range_map, Option.mem_some_iff] at hx
      rw [hk0] at hk
      have h2 : W * (m + 1) = W * m + W := by ring
      omega

/-- C3 (amended): from a stored ring satisfying the invariant (windows
aligned, strictly increasing, spaced exactly `W`, length at most `N + 1`),
every successful run of `promote_current_to_ring` yields a ring with
strictly increasing windows of length at most `N + 1`, and preserves the
exact-`W` spacing whenever the offline-longer-than-retention branch is not
taken; that branch produces strictly increasing windows whose final gap
exceeds `W`. -/
theorem C3_ring_invariant_preservation (W N now : Nat) (h : Handle)
    (hW : 0 < W) (hN : 0 < N) (hnow : now + W < 2 ^ 256)
    (hwf : h.db.ring = none ∨ ∃ first rest,
        h.db.ring = some (first :: rest) ∧ first.1 % W = 0 ∧
        (∀ p ∈ first :: rest, p.1 < 2 ^ 256) ∧
        ringInvariant W N (first :: rest)) :
    ∃ h2 rs2, append_current_root_hash_to_historical W N now h = .ok h2 ∧
      h2.db.ring = some rs2 ∧
      (ringWindows rs2).Chain' (fun a b => a < b) ∧
      rs2.length ≤ N + 1 ∧
      (¬ offlineBranch W N now h.db.ring →
        (ringWindows rs2).Chain' (fun a b => b = a + W)) := by
  rcases hwf with hnone | ⟨first, rest, hr, halign, hbound, hinv⟩
  · refine ⟨_, [(now / W * W + W, h.trie)],
      append_ring_none W N now h hnone, rfl, ?_, ?_, ?_⟩
    · simp [ringWindows]
    · simp
    · intro _
      simp [ringWindows]
  · obtain ⟨hmono, hspaced, hlen⟩ := hinv
    by_cases hlt : now / W * W < ((first :: rest).getLastD first).1
    · refine ⟨_, (first :: rest).dropLast
          ++ [(((first :: rest).getLastD first).1, h.trie)],
        append_update_eq W N now h first rest hr hlt, rfl, ?_, ?_, ?_⟩
      · rw [ringWindows_updateLast _ _ _ (by simp)]
        exact hmono
      · have hl : (first :: rest).length = rest.length + 1 := by simp
        simp only [List.length_append, List.length_dropLast,
          List.length_cons, List.length_singleton, List.length_nil]
        omega
      · intro _
        rw [ringWindows_updateLast _ _ _ (by simp)]
        exact hspaced
    · by_cases hoff : ((first :: rest).getLastD first).1 + N * W < now
      · refine ⟨_, offlineNewRing W N now (first :: rest) first h.trie,
          append_offline_eq W N now h first rest hW hN hr hoff halign
            (by omega), rfl, ?_, ?_, ?_⟩
        · rw [offlineNewRing_windows]
          exact offline_windows_strict W N now hW hN (by omega)
        · simp [offlineNewRing]
        · intro hnb
          exfalso
          apply hnb
          rw [hr]
          exact ⟨by omega, hoff⟩
      · have hlat : ((first :: rest).getLastD first).1 ≤ now / W * W := by
          omega
        have hnotoff : now ≤ ((first :: rest).getLastD first).1 + N * W := by
          omega
        have hsp := normalAppended_windows_spaced W now first rest h.trie hW
          halign hspaced hlat
        have hwin : ringWindows (pyTrimKeepLast N
              (normalAppended W now (first :: rest) first h.trie))
            = (ringWindows (normalAppended W now (first :: rest) first
                h.trie)).drop
              ((normalAppended W now (first :: rest) first h.trie).length
                - N) := by
          unfold pyTrimKeepLast
          rw [if_neg (by omega)]
          unfold ringWindows
          rw [List.map_drop]
        have hspT : (ringWindows (pyTrimKeepLast N
              (normalAppended W now (first :: rest) first h.trie))).Chain'
            (fun a b => b = a + W) := by
          rw [hwin]
          exact hsp.suffix (List.drop_suffix _ _)
        refine ⟨_, pyTrimKeepLast N
            (normalAppended W now (first :: rest) first h.trie),
          append_normal_eq W N now h first rest hW hr hlat hnotoff halign
            hbound hnow, rfl, ?_, ?_, ?_⟩
        · exact hspT.imp (fun a b hab => by omega)
        · unfold pyTrimKeepLast
          rw [if_neg (by omega)]
          rw [List.length_drop]
          omega
        · intro _
          exact hspT

theorem C3_ring_invariant_preservation_witness :
    ((0 : Nat) < 1000 ∧ (0 : Nat) < 4 ∧ (12500 : Nat) + 1000 < 2 ^ 256 ∧
      s2In.db.ring = some [(11000, rootR0)] ∧ (11000 : Nat) % 1000 = 0 ∧
      (∀ p ∈ [((11000 : Nat), rootR0)], p.1 < 2 ^ 256) ∧
      ringInvariant 1000 4 [(11000, rootR0)]) ∧
    (∃ h2 rs2, append_current_root_hash_to_historical 1000 4 12500 s2In
        = .ok h2 ∧
      h2.db.ring = some rs2 ∧
      (ringWindows rs2).Chain' (fun a b => a < b) ∧
      rs2.length ≤ 4 + 1 ∧
      (¬ offlineBranch 1000 4 12500 s2In.db.ring →
        (ringWindows rs2).Chain' (fun a b => b = a + 1000))) :=
  ⟨⟨by decide, by decide, by decide, by rfl, by decide, by decide,
    ⟨by simp [ringWindows], by simp [ringWindows], by simp⟩⟩,
   C3_ring_invariant_preservation 1000 4 12500 s2In (by decide) (by decide)
     (by decide)
     (.inr ⟨(11000, rootR0), [], rfl, by decide, by decide,
       ⟨by simp [ringWindows], by simp [ringWindows], by simp⟩⟩)⟩

/-- C4: in the normal rollover case — ring non-empty, latest window at most
the last finished window, not offline longer than retention — the ring
becomes the old entries, then one synthetic entry per window from
`latest + W` up to the last finished window (each carrying the previous
tail's root), then `(current_window, self.root_hash)`, trimmed from the
front; chronological windows that fell off the front are deleted. -/
theorem C4_normal_rollover (W N now : Nat) (h : Handle) (first : Nat × Root)
    (rest : List (Nat × Root)) (hW : 0 < W)
    (hring : h.db.ring = some (first :: rest))
    (hlat : ((first :: rest).getLastD first).1 ≤ now / W * W)
    (hnotoff : now ≤ ((first :: rest).getLastD first).1 + N * W)
    (halign : first.1 % W = 0)
    (hbound : ∀ p ∈ first :: rest, p.1 < 2 ^ 256)
    (hnow : now + W < 2 ^ 256) :
    append_current_root_hash_to_historical W N now h =
      .ok { db := { currentRoot := h.db.currentRoot,
                    ring := some (pyTrimKeepLast N
                        (normalAppended W now (first :: rest) first h.trie)),
                    chron := chronDelAll h.db.chron
                        (pyRangeStep first.1
                          ((pyTrimKeepLast N (normalAppended W now
                              (first :: rest) first h.trie)).headD first).1
                          W) },
            trie := h.trie } :=
  append_normal_eq W N now h first rest hW hring hlat hnotoff halign hbound
    hnow

theorem C4_normal_rollover_witness :
    ((0 : Nat) < 1000 ∧
      (([((11000 : Nat), rootR0)].getLastD (11000, rootR0)).1
        ≤ 12500 / 1000 * 1000) ∧
      (12500 : Nat) ≤ 11000 + 4 * 1000 ∧ (11000 : Nat) % 1000 = 0 ∧
      (∀ p ∈ [((11000 : Nat), rootR0)], p.1 < 2 ^ 256) ∧
      (12500 : Nat) + 1000 < 2 ^ 256) ∧
    append_current_root_hash_to_historical 1000 4 12500
        { db := { currentRoot := some rootR1,
                  ring := some [(11000, rootR0)], chron := [] },
          trie := rootR1 }
      = .ok { db := { currentRoot := some rootR1,
                      ring := some (pyTrimKeepLast 4
                          (normalAppended 1000 12500 [(11000, rootR0)]
                            (11000, rootR0) rootR1)),
                      chron := chronDelAll []
                          (pyRangeStep 11000
                            ((pyTrimKeepLast 4 (normalAppended 1000 12500
                                [(11000, rootR0)] (11000, rootR0)
                                rootR1)).headD (11000, rootR0)).1 1000) },
              trie := rootR1 } ∧
    pyTrimKeepLast 4 (normalAppended 1000 12500 [(11000, rootR0)]
        (11000, rootR0) rootR1)
      = [(11000, rootR0), (12000, rootR0), (13000, rootR1)] ∧
    (set_chain_head_hash s2In addrB hashH2 >>= fun h1 =>
        persist 1000 4 12500 h1 true)
      = .ok { db := { currentRoot := some rootR1,
                      ring := some [(11000, rootR0), (12000, rootR0),
                        (13000, rootR1)],
                      chron := [] },
              trie := rootR1 } :=
  ⟨⟨by decide, by decide, by decide, by decide, by decide, by decide⟩,
   C4_normal_rollover 1000 4 12500
     { db := { currentRoot := some rootR1, ring := some [(11000, rootR0)],
               chron := [] },
       trie := rootR1 } (11000, rootR0) [] (by decide) (by rfl) (by decide)
     (by decide) (by decide) (by decide) (by decide),
   by rfl, by rfl⟩

theorem append_ok_preserves (W N now : Nat) (h : Handle) (hW : 0 < W)
    (hN : 0 < N) (hnow : now + W < 2 ^ 256)
    (hwf : ringStoreWF W h.db.ring) :
    ∃ h2, append_current_root_hash_to_historical W N now h = .ok h2 ∧
      h2.db.currentRoot = h.db.currentRoot ∧ h2.trie = h.trie := by
  cases hr : h.db.ring with
  | none => exact ⟨_, append_ring_none W N now h hr, rfl, rfl⟩
  | some l =>
    cases l with
    | nil =>
      rw [hr] at hwf
      simp only [ringStoreWF] at hwf
    | cons first rest =>
      rw [hr] at hwf
      simp only [ringStoreWF] at hwf
      obtain ⟨halign, hbound⟩ := hwf
      by_cases hlt : now / W * W < ((first :: rest).getLastD first).1
      · exact ⟨_, append_update_eq W N now h first rest hr hlt, rfl, rfl⟩
      · by_cases hoff : ((first :: rest).getLastD first).1 + N * W < now
        · exact ⟨_, append_offline_eq W N now h first rest hW hN hr hoff
            halign (by omega), rfl, rfl⟩
        · exact ⟨_, append_normal_eq W N now h first rest hW hr (by omega)
            (by omega) halign hbound hnow, rfl, rfl⟩

/-- C7: persistence round-trips: `open → set_head → commit(save_current) →
load_from_saved_root_hash` yields a handle at the saved root whose
`get_chain_head_hash` returns the written hash; if the current-root key is
absent, loading opens the empty snapshot. -/
theorem C7_persist_load_roundtrip (W N now : Nat) (db : DB) (address : Addr)
    (head_hash : Hash) (hW : 0 < W) (hN : 0 < N) (hnow : now + W < 2 ^ 256)
    (ha : isCanonicalAddress address = true)
    (hwf : ringStoreWF W db.ring) :
    (∃ h1 h2, set_chain_head_hash { db := db, trie := [] } address head_hash
          = .ok h1 ∧
      persist W N now h1 true = .ok h2 ∧
      h2.db.currentRoot = some (triePut [] address head_hash) ∧
      load_from_saved_root_hash h2.db
        = { db := h2.db, trie := triePut [] address head_hash } ∧
      get_chain_head_hash (load_from_saved_root_hash h2.db) address
        = .ok (some head_hash)) ∧
    (∀ db2 : DB, db2.currentRoot = none →
      load_from_saved_root_hash db2 = { db := db2, trie := [] }) := by
  constructor
  · obtain ⟨h2, happ, hcur, htr⟩ := append_ok_preserves W N now
      { db := { db with currentRoot := some (triePut [] address head_hash) },
        trie := triePut [] address head_hash } hW hN hnow hwf
    have hcur2 : h2.db.currentRoot = some (triePut [] address head_hash) :=
      hcur
    have hload : load_from_saved_root_hash h2.db
        = { db := h2.db, trie := triePut [] address head_hash } := by
      unfold load_from_saved_root_hash
      rw [hcur2]
    refine ⟨{ db := db, trie := triePut [] address head_hash }, h2, ?_, ?_,
      hcur2, hload, ?_⟩
    · simp [set_chain_head_hash, ha]
    · show save_current_root_hash W N now _ = .ok h2
      unfold save_current_root_hash
      exact happ
    · rw [hload]
      simp [get_chain_head_hash, ha, trieGet_triePut_self]
  · intro db2 hc
    unfold load_from_saved_root_hash
    rw [hc]

theorem C7_persist_load_roundtrip_witness :
    ((0 : Nat) < 1000 ∧ (0 : Nat) < 4 ∧ (10000 : Nat) + 1000 < 2 ^ 256 ∧
      isCanonicalAddress addrA = true ∧ ringStoreWF 1000 emptyDB.ring) ∧
    ((∃ h1 h2, set_chain_head_hash { db := emptyDB, trie := [] } addrA hashH1
          = .ok h1 ∧
      persist 1000 4 10000 h1 true = .ok h2 ∧
      h2.db.currentRoot = some (triePut [] addrA hashH1) ∧
      load_from_saved_root_hash h2.db
        = { db := h2.db, trie := triePut [] addrA hashH1 } ∧
      get_chain_head_hash (load_from_saved_root_hash h2.db) addrA
        = .ok (some hashH1)) ∧
    (∀ db2 : DB, db2.currentRoot = none →
      load_from_saved_root_hash db2 = { db := db2, trie := [] })) :=
  ⟨⟨by decide, by decide, by decide, by decide, trivial⟩,
   C7_persist_load_roundtrip 1000 4 10000 emptyDB addrA hashH1 (by decide)
     (by decide) (by decide) (by decide) trivial⟩

end ChainHead
